import Mathlib

/-!
# SlowCopy: the resumable chunked-copy engine of `slowcopy/Main.cpp`

A shallow embedding of the per-file job state (`AFile`), the creation of the
initial chunks (`AFile::StartCopying`) and the completion handler
(`AFile::ReportCompletion`), followed by the properties proved about them.

Modelling conventions.

* `uint64_t` and `uint32_t` values are natural numbers; every arithmetic step
  of the source that can wrap is written with an explicit `% 2 ^ 64` or
  `% 2 ^ 32`.
* `std::unordered_map<uint64_t, Chunk*> m_chunks` is a list of chunks, the key of
  an entry being its `m_position` (the source always inserts a chunk under its
  own position).  The iteration order of the map is unspecified in the source;
  the list puts the most recently inserted entry first.
* The two values `ReportCompletion` reads from its environment are explicit
  arguments: `dataSize`, the value `Chunk::Start` left in `chunk->m_dataSize`,
  and `microSeconds`, the difference of the two performance-counter readings.
* File handles, buffers, the progress strings and the checkpoint file do not
  influence the chunk bookkeeping and are not part of the state.
-/

set_option linter.dupNamespace false
set_option linter.unusedVariables false

namespace SlowCopy

/-- The bookkeeping part of `class Chunk`: the byte range `[m_position, m_position + m_chunkSize)`. -/
structure Chunk where
  m_position : Nat
  m_chunkSize : Nat
deriving DecidableEq, Repr

/-- The bookkeeping part of `class AFile`. -/
structure AFile where
  m_size : Nat
  m_nextChunkPosition : Nat
  m_currentChunkSize : Nat
  m_bytesCopied : Nat
  m_chunks : List Chunk
deriving DecidableEq, Repr

/-- Constructor `AFile::AFile()` (lines 57-64). -/
def AFile.AFile : AFile :=
  { m_size := 0
    m_nextChunkPosition := 0
    m_currentChunkSize := 0x10000
    m_bytesCopied := 0
    m_chunks := [] }

/-- The state `TryOpenFile` returns when no checkpoint file was loaded:
a constructed `AFile` whose `m_size` is the `st_size` of the source (line 478). -/
def TryOpenFile (stSize : Nat) : AFile :=
  { AFile.AFile with m_size := stSize }

/-- Lookup `m_chunks.at(position)`; `none` stands for the `std::out_of_range` it throws. -/
def chunkAt (m : List Chunk) (position : Nat) : Option Chunk :=
  m.find? (fun c => c.m_position == position)

/-- Removal `m_chunks.erase(position)`. -/
def chunkErase (m : List Chunk) (position : Nat) : List Chunk :=
  m.filter (fun c => c.m_position != position)

/-- Insertion `m_chunks.insert({position, chunk})`: `std::unordered_map::insert` leaves the
map unchanged when the key is already present. -/
def chunkInsert (m : List Chunk) (c : Chunk) : List Chunk :=
  if (chunkAt m c.m_position).isSome then m else c :: m

/-- The loop `for (auto i = 0; i < 2; i++)` of `AFile::StartCopying` (lines 411-428);
the first argument is the number of iterations still allowed. -/
def initialChunks : Nat → AFile → AFile
  | 0, f => f
  | i + 1, f =>
    let chunkSize := (f.m_size + 2 ^ 64 - f.m_nextChunkPosition) % 2 ^ 64
    let chunkSize := if chunkSize > f.m_currentChunkSize then f.m_currentChunkSize else chunkSize
    let position := f.m_nextChunkPosition
    let f1 : AFile :=
      { f with
        m_nextChunkPosition := (f.m_nextChunkPosition + chunkSize) % 2 ^ 64
        m_chunks := chunkInsert f.m_chunks ⟨position, chunkSize % 2 ^ 32⟩ }
    if f1.m_nextChunkPosition ≥ f1.m_size then f1 else initialChunks i f1

/-- State effect of `AFile::StartCopying` up to the point where the chunks are started
(lines 399-434).  `destExists` is the outcome of probing the destination file. -/
def StartCopying (f : AFile) (destExists : Bool) : AFile :=
  if f.m_chunks.length = 0 then
    if destExists then f else initialChunks 2 f
  else f

/-- A freshly started job on a source file of `S` bytes. -/
def fresh (S : Nat) : AFile :=
  StartCopying (TryOpenFile S) false

/-- Lines 208-218 of `AFile::ReportCompletion`: the chunk size proposed from the measured
throughput, or the recommended size `m_currentChunkSize`.

The source computes `chunk->m_dataSize * (uint64_t)(100000000.0 / microSeconds)` in
double precision.  For `microSeconds > 10` the truncated quotient is the integer quotient
`100000000 / microSeconds`: the exact quotient is below `2 ^ 24`, where doubles are spaced
at most `2 ^ (-29)` apart, while a quotient that is not an integer lies at least
`1 / microSeconds ≥ 10 ^ (-8)` away from the next integer (and a quotient below one stays
below one), so rounding never crosses an integer. -/
def candidateSize (hint dataSize : Nat) (microSeconds : Int) : Nat :=
  let chunkSize := hint
  let chunkSize :=
    if microSeconds > 10 then (dataSize * (100000000 / microSeconds.toNat)) % 2 ^ 64
    else chunkSize
  if chunkSize < 0x1000 then hint else chunkSize

/-- Lines 219-223: a chunk that would leave less than half of itself takes everything. -/
def tailMerge (chunkSize remainingSize : Nat) : Nat :=
  if chunkSize ≥ remainingSize ∨ remainingSize - chunkSize < chunkSize / 2 then remainingSize
  else chunkSize

/-- Lines 224-233: the value of `newChunkSize` in the branch of a fully read chunk. -/
def newChunkSize (hint dataSize : Nat) (microSeconds : Int) (remainingSize : Nat) : Nat :=
  let chunkSize := tailMerge (candidateSize hint dataSize microSeconds) remainingSize
  if chunkSize > 0x4000000 then 0x4000000 else chunkSize % 2 ^ 32

/-- Lines 224-232: the value of `m_currentChunkSize` after the same branch. -/
def newHint (hint dataSize : Nat) (microSeconds : Int) (remainingSize : Nat) : Nat :=
  let chunkSize := tailMerge (candidateSize hint dataSize microSeconds) remainingSize
  if chunkSize > 0x4000000 then hint else chunkSize % 2 ^ 32

/-- The function `AFile::ReportCompletion(position, isSuccess)` (lines 153-263).
`isSuccess` only decides whether the open `FILE*` is handed to the new chunk. -/
def ReportCompletion (f : AFile) (position : Nat) (isSuccess : Bool)
    (dataSize : Nat) (microSeconds : Int) : Option AFile :=
  match chunkAt f.m_chunks position with
  | none => none
  | some chunk =>
    let chunks := chunkErase f.m_chunks position
    let bytesCopied := (f.m_bytesCopied + dataSize) % 2 ^ 64
    if dataSize = chunk.m_chunkSize then
      if f.m_nextChunkPosition < f.m_size then
        let remainingSize := f.m_size - f.m_nextChunkPosition
        let size := newChunkSize f.m_currentChunkSize dataSize microSeconds remainingSize
        let newPosition := f.m_nextChunkPosition
        some
          { f with
            m_bytesCopied := bytesCopied
            m_currentChunkSize := newHint f.m_currentChunkSize dataSize microSeconds remainingSize
            m_nextChunkPosition := (f.m_nextChunkPosition + size) % 2 ^ 64
            m_chunks := if newPosition > 0 then chunkInsert chunks ⟨newPosition, size⟩ else chunks }
      else
        some { f with m_bytesCopied := bytesCopied, m_chunks := chunks }
    else
      let newPosition := (chunk.m_position + dataSize) % 2 ^ 64
      let size := (chunk.m_chunkSize + 2 ^ 32 - dataSize) % 2 ^ 32
      some
        { f with
          m_bytesCopied := bytesCopied
          m_chunks := if newPosition > 0 then chunkInsert chunks ⟨newPosition, size⟩ else chunks }

/-- Sum of `m_chunkSize` over the outstanding table. -/
def outstandingBytes (m : List Chunk) : Nat :=
  (m.map (fun c => c.m_chunkSize)).sum

/-- The read loop of `Chunk::Start` (lines 108-134), started with `dataSize` bytes in the
buffer.  `reads` lists what the successive calls of `fread_s` return: the number of bytes
read, which `fread_s` keeps within the number asked for, and whether `feof` holds
afterwards.  The result is the pair of `m_dataSize` and the flag passed to
`ReportCompletion`; `none` when the list ends before the loop does. -/
def readLoop (chunkSize : Nat) : List (Nat × Bool) → Nat → Option (Nat × Bool)
  | [], dataSize => if dataSize < chunkSize then none else some (dataSize, true)
  | (bytes, eof) :: rest, dataSize =>
    if dataSize < chunkSize then
      let bytesToRead := min 0x4000 (chunkSize - dataSize)
      let bytes := min bytes bytesToRead
      let dataSize := (dataSize + bytes) % 2 ^ 32
      if bytes ≠ bytesToRead then some (dataSize, eof)
      else readLoop chunkSize rest dataSize
    else some (dataSize, true)

/-- What `Chunk::Start` reports (lines 88-135): `m_dataSize` and `isSuccess`.  `opened`
tells whether the chunk has an open source file, handed over or opened by `fopen_s`. -/
def Chunk.Start (c : Chunk) (opened : Bool) (reads : List (Nat × Bool)) : Option (Nat × Bool) :=
  if opened then readLoop c.m_chunkSize reads 0 else some (0, false)

/-- One completion report as the environment delivers it: which chunk, the flag
`Chunk::Start` passes, the bytes it read and the elapsed counter ticks. -/
structure Completion where
  position : Nat
  isSuccess : Bool
  dataSize : Nat
  microSeconds : Int
deriving DecidableEq, Repr

/-- Deliver one completion: the chunk has to be outstanding and `Chunk::Start` never reads
more than the requested size (its loop runs while `m_dataSize < m_chunkSize`). -/
def deliver (f : AFile) (e : Completion) : Option AFile :=
  match chunkAt f.m_chunks e.position with
  | none => none
  | some c =>
    if e.dataSize ≤ c.m_chunkSize then
      ReportCompletion f e.position e.isSuccess e.dataSize e.microSeconds
    else none

/-- Deliver a sequence of completions, one after the other. -/
def run : AFile → List Completion → Option AFile
  | f, [] => some f
  | f, e :: es =>
    match deliver f e with
    | none => none
    | some f1 => run f1 es

/-- A completion that read the whole requested range of its chunk. -/
def fullRead (f : AFile) (e : Completion) : Bool :=
  match chunkAt f.m_chunks e.position with
  | none => false
  | some c => e.dataSize == c.m_chunkSize

/-- Deliver a sequence of completions all of which read their whole chunk. -/
def runFull : AFile → List Completion → Option AFile
  | f, [] => some f
  | f, e :: es =>
    if fullRead f e then
      match deliver f e with
      | none => none
      | some f1 => runFull f1 es
    else none

/-- Two byte ranges that share no byte. -/
def Chunk.disjoint (a b : Chunk) : Prop :=
  a.m_position + a.m_chunkSize ≤ b.m_position ∨ b.m_position + b.m_chunkSize ≤ a.m_position

instance Chunk.decidableDisjoint (a b : Chunk) : Decidable (Chunk.disjoint a b) := by
  unfold Chunk.disjoint; infer_instance

/-- The bytes accounted for by a state: copied, outstanding and not yet scheduled. -/
def accounted (f : AFile) : Nat :=
  f.m_bytesCopied + outstandingBytes f.m_chunks + (f.m_size - f.m_nextChunkPosition)

/-- What every state reachable from a fresh job satisfies. -/
structure Inv (f : AFile) : Prop where
  size_lt : f.m_size < 2 ^ 64
  next_le : f.m_nextChunkPosition ≤ f.m_size
  next_pos : 0 < f.m_size → 0 < f.m_nextChunkPosition
  hint_ge : f.m_nextChunkPosition < f.m_size → 4096 ≤ f.m_currentChunkSize
  hint_lt : f.m_currentChunkSize < 2 ^ 32
  inside : ∀ c ∈ f.m_chunks, c.m_position + c.m_chunkSize ≤ f.m_nextChunkPosition
  small : ∀ c ∈ f.m_chunks, c.m_chunkSize ≤ 0x4000000
  nonzero : 0 < f.m_size → ∀ c ∈ f.m_chunks, 0 < c.m_chunkSize
  keys : f.m_chunks.Pairwise (fun a b => a.m_position ≠ b.m_position)
  apart : f.m_chunks.Pairwise Chunk.disjoint
  account : accounted f ≤ f.m_size

/-- The state after a fully read chunk while bytes remain to be scheduled. -/
def afterFull (f : AFile) (p d : Nat) (us : Int) : AFile :=
  { f with
    m_bytesCopied := f.m_bytesCopied + d
    m_currentChunkSize := newHint f.m_currentChunkSize d us (f.m_size - f.m_nextChunkPosition)
    m_nextChunkPosition :=
      f.m_nextChunkPosition + newChunkSize f.m_currentChunkSize d us (f.m_size - f.m_nextChunkPosition)
    m_chunks :=
      ⟨f.m_nextChunkPosition,
        newChunkSize f.m_currentChunkSize d us (f.m_size - f.m_nextChunkPosition)⟩ ::
        chunkErase f.m_chunks p }

/-- The state after a completion that creates no chunk. -/
def afterLast (f : AFile) (p d : Nat) : AFile :=
  { f with m_bytesCopied := f.m_bytesCopied + d, m_chunks := chunkErase f.m_chunks p }

/-- The state after a short read whose remainder is scheduled again. -/
def afterShort (f : AFile) (p s d : Nat) : AFile :=
  { f with
    m_bytesCopied := f.m_bytesCopied + d
    m_chunks := ⟨p + d, s - d⟩ :: chunkErase f.m_chunks p }

/-- What holds in addition to `Inv` as long as no chunk is dropped: every byte is accounted
for, and bytes left to schedule mean that a chunk is outstanding. -/
structure Exact (f : AFile) : Prop where
  account : accounted f = f.m_size
  busy : f.m_nextChunkPosition < f.m_size → f.m_chunks ≠ []

/-! ## The table operations -/

theorem chunkAt_mem {m : List Chunk} {p : Nat} {c : Chunk} (h : chunkAt m p = some c) :
    c ∈ m ∧ c.m_position = p := by
  unfold chunkAt at h
  refine ⟨List.mem_of_find?_eq_some h, ?_⟩
  have := List.find?_some h
  simpa using this

theorem mem_chunkErase {m : List Chunk} {p : Nat} {c : Chunk} :
    c ∈ chunkErase m p ↔ c ∈ m ∧ c.m_position ≠ p := by
  simp [chunkErase, List.mem_filter]

theorem chunkAt_eq_none {m : List Chunk} {p : Nat} (h : ∀ c ∈ m, c.m_position ≠ p) :
    chunkAt m p = none := by
  simp only [chunkAt, List.find?_eq_none]
  intro c hc
  simpa using h c hc

theorem chunkInsert_absent {m : List Chunk} {c : Chunk} (h : ∀ a ∈ m, a.m_position ≠ c.m_position) :
    chunkInsert m c = c :: m := by
  simp [chunkInsert, chunkAt_eq_none h]

theorem outstandingBytes_nil : outstandingBytes [] = 0 := rfl

theorem outstandingBytes_cons (c : Chunk) (m : List Chunk) :
    outstandingBytes (c :: m) = c.m_chunkSize + outstandingBytes m := by
  simp [outstandingBytes]

theorem le_outstandingBytes {m : List Chunk} {c : Chunk} (h : c ∈ m) :
    c.m_chunkSize ≤ outstandingBytes m := by
  induction m with
  | nil => cases h
  | cons a m ih =>
    rw [outstandingBytes_cons]
    rcases List.mem_cons.mp h with rfl | h
    · omega
    · have := ih h
      omega

/-- Erasing the key of an entry of a table with distinct keys removes exactly its bytes. -/
theorem outstandingBytes_chunkErase {m : List Chunk} {c : Chunk}
    (hk : m.Pairwise (fun a b => a.m_position ≠ b.m_position)) (h : c ∈ m) :
    outstandingBytes (chunkErase m c.m_position) + c.m_chunkSize = outstandingBytes m := by
  induction m with
  | nil => cases h
  | cons a m ih =>
    rw [List.pairwise_cons] at hk
    rcases List.mem_cons.mp h with rfl | h
    · have : chunkErase (c :: m) c.m_position = m := by
        simp only [chunkErase, List.filter_cons, bne_self_eq_false, Bool.false_eq_true, if_false]
        rw [List.filter_eq_self]
        intro b hb
        simpa using (hk.1 b hb).symm
      rw [this, outstandingBytes_cons]
      omega
    · have hne : a.m_position ≠ c.m_position := hk.1 c h
      have : chunkErase (a :: m) c.m_position = a :: chunkErase m c.m_position := by
        simp [chunkErase, List.filter_cons, hne]
      rw [this, outstandingBytes_cons, outstandingBytes_cons]
      have := ih hk.2 h
      omega

theorem length_chunkErase_lt {m : List Chunk} {c : Chunk} (h : c ∈ m) :
    (chunkErase m c.m_position).length < m.length := by
  induction m with
  | nil => cases h
  | cons a m ih =>
    by_cases ha : a.m_position = c.m_position
    · have : chunkErase (a :: m) c.m_position = chunkErase m c.m_position := by
        simp [chunkErase, List.filter_cons, ha]
      rw [this]
      have : (chunkErase m c.m_position).length ≤ m.length := List.length_filter_le _ _
      simp only [List.length_cons]
      omega
    · have : chunkErase (a :: m) c.m_position = a :: chunkErase m c.m_position := by
        simp [chunkErase, List.filter_cons, ha]
      rw [this]
      rcases List.mem_cons.mp h with rfl | h
      · exact absurd rfl ha
      · have := ih h
        simp only [List.length_cons]
        omega

theorem length_chunkInsert_le (m : List Chunk) (c : Chunk) :
    (chunkInsert m c).length ≤ m.length + 1 := by
  unfold chunkInsert
  split <;> simp

/-! ## The chunk-size computation -/

theorem candidateSize_ge {hint : Nat} (dataSize : Nat) (microSeconds : Int)
    (h : 4096 ≤ hint) : 4096 ≤ candidateSize hint dataSize microSeconds := by
  unfold candidateSize
  simp only
  split_ifs <;> omega

theorem tailMerge_le (k r : Nat) : tailMerge k r ≤ r := by
  unfold tailMerge
  split_ifs <;> omega

theorem newChunkSize_le (hint dataSize : Nat) (microSeconds : Int) (r : Nat) :
    newChunkSize hint dataSize microSeconds r ≤ 0x4000000 ∧
      newChunkSize hint dataSize microSeconds r ≤ r := by
  unfold newChunkSize
  simp only
  have := tailMerge_le (candidateSize hint dataSize microSeconds) r
  split_ifs <;> omega

/-- With a recommended size of at least 4096 the new chunk has at least 4096 bytes unless it
takes everything that remains. -/
theorem newChunkSize_ge {hint : Nat} (dataSize : Nat) (microSeconds : Int) (r : Nat)
    (h : 4096 ≤ hint) :
    4096 ≤ newChunkSize hint dataSize microSeconds r ∨
      newChunkSize hint dataSize microSeconds r = r := by
  have hc := candidateSize_ge dataSize microSeconds h
  unfold newChunkSize tailMerge
  simp only
  split_ifs <;> omega

theorem newHint_ge {hint : Nat} (dataSize : Nat) (microSeconds : Int) (r : Nat)
    (h : 4096 ≤ hint) (hn : newChunkSize hint dataSize microSeconds r < r) :
    4096 ≤ newHint hint dataSize microSeconds r := by
  have hc := candidateSize_ge dataSize microSeconds h
  unfold newChunkSize tailMerge at hn
  unfold newHint tailMerge
  simp only at hn ⊢
  split_ifs at hn ⊢ <;> omega

theorem newHint_lt {hint : Nat} (dataSize : Nat) (microSeconds : Int) (r : Nat)
    (h : hint < 2 ^ 32) : newHint hint dataSize microSeconds r < 2 ^ 32 := by
  unfold newHint
  simp only
  split_ifs <;> omega

/-! ## The invariant of the job state -/

theorem disjoint_symm : Symmetric Chunk.disjoint := by
  intro a b h
  unfold Chunk.disjoint at h ⊢
  omega

theorem inv_bytes_lt {f : AFile} (hI : Inv f) {c : Chunk} (hc : c ∈ f.m_chunks) {d : Nat}
    (hd : d ≤ c.m_chunkSize) : f.m_bytesCopied + d < 2 ^ 64 := by
  have h1 := hI.account
  have h2 := le_outstandingBytes hc
  have h3 := hI.size_lt
  unfold accounted at h1
  omega

theorem ReportCompletion_full {f : AFile} {p : Nat} {c : Chunk} (ok : Bool) (us : Int)
    (hI : Inv f) (hc : chunkAt f.m_chunks p = some c)
    (hn : f.m_nextChunkPosition < f.m_size) :
    ReportCompletion f p ok c.m_chunkSize us = some (afterFull f p c.m_chunkSize us) := by
  obtain ⟨hm, hp⟩ := chunkAt_mem hc
  have h1 := inv_bytes_lt hI hm (Nat.le_refl _)
  have h2 := newChunkSize_le f.m_currentChunkSize c.m_chunkSize us (f.m_size - f.m_nextChunkPosition)
  have h3 := hI.size_lt
  have h4 : 0 < f.m_nextChunkPosition := hI.next_pos (by omega)
  have h5 : ∀ a ∈ chunkErase f.m_chunks p, a.m_position ≠
      (⟨f.m_nextChunkPosition,
        newChunkSize f.m_currentChunkSize c.m_chunkSize us (f.m_size - f.m_nextChunkPosition)⟩ :
        Chunk).m_position := by
    intro a ha
    have ha1 := (mem_chunkErase.mp ha).1
    have ha2 := hI.inside a ha1
    have ha3 := hI.nonzero (by omega) a ha1
    simp only
    omega
  unfold ReportCompletion afterFull
  rw [hc]
  simp only [if_pos, hn, h4, gt_iff_lt, chunkInsert_absent h5]
  rw [Nat.mod_eq_of_lt h1, Nat.mod_eq_of_lt (by omega)]

theorem ReportCompletion_last {f : AFile} {p : Nat} {c : Chunk} (ok : Bool) (us : Int)
    (hI : Inv f) (hc : chunkAt f.m_chunks p = some c)
    (hn : ¬ f.m_nextChunkPosition < f.m_size) :
    ReportCompletion f p ok c.m_chunkSize us = some (afterLast f p c.m_chunkSize) := by
  obtain ⟨hm, hp⟩ := chunkAt_mem hc
  have h1 := inv_bytes_lt hI hm (Nat.le_refl _)
  unfold ReportCompletion afterLast
  rw [hc]
  simp only [if_pos, hn, if_false]
  rw [Nat.mod_eq_of_lt h1]

theorem ReportCompletion_short {f : AFile} {p d : Nat} {c : Chunk} (ok : Bool) (us : Int)
    (hI : Inv f) (hc : chunkAt f.m_chunks p = some c) (hd : d < c.m_chunkSize)
    (hpos : 0 < p + d) :
    ReportCompletion f p ok d us = some (afterShort f p c.m_chunkSize d) := by
  obtain ⟨hm, hp⟩ := chunkAt_mem hc
  have h1 := inv_bytes_lt hI hm (Nat.le_of_lt hd)
  have h2 := hI.inside c hm
  have h3 := hI.size_lt
  have h4 := hI.next_le
  have h6 := hI.small c hm
  have h5 : ∀ a ∈ chunkErase f.m_chunks p, a.m_position ≠ (⟨p + d, c.m_chunkSize - d⟩ : Chunk).m_position := by
    intro a ha
    obtain ⟨ha1, ha2⟩ := mem_chunkErase.mp ha
    have hne : a ≠ c := by
      rintro rfl
      exact ha2 hp
    have := hI.apart.forall disjoint_symm ha1 hm hne
    unfold Chunk.disjoint at this
    simp only
    omega
  have e1 : (c.m_position + d) % 2 ^ 64 = p + d := by
    rw [Nat.mod_eq_of_lt (by omega), hp]
  have e2 : (c.m_chunkSize + 2 ^ 32 - d) % 2 ^ 32 = c.m_chunkSize - d := by omega
  unfold ReportCompletion afterShort
  rw [hc]
  simp only [if_neg (Nat.ne_of_lt hd), e1, e2, gt_iff_lt, hpos, if_pos, chunkInsert_absent h5]
  rw [Nat.mod_eq_of_lt h1]

/-- The missed case: a chunk at position 0 that read nothing is dropped, not scheduled again. -/
theorem ReportCompletion_dropped {f : AFile} {c : Chunk} (ok : Bool) (us : Int)
    (hI : Inv f) (hc : chunkAt f.m_chunks 0 = some c) (hd : 0 < c.m_chunkSize) :
    ReportCompletion f 0 ok 0 us = some (afterLast f 0 0) := by
  obtain ⟨hm, hp⟩ := chunkAt_mem hc
  have h2 := hI.inside c hm
  have h3 := hI.size_lt
  have h4 := hI.next_le
  have h1 := inv_bytes_lt hI hm (Nat.zero_le _)
  have e1 : (c.m_position + 0) % 2 ^ 64 = 0 := by omega
  unfold ReportCompletion afterLast
  rw [hc]
  simp only [if_neg (Nat.ne_of_lt hd), e1, gt_iff_lt, Nat.lt_irrefl, if_false]
  rw [Nat.mod_eq_of_lt h1]

/-! ## Preservation of the invariant -/

theorem accounted_afterFull {f : AFile} {p : Nat} {c : Chunk} (us : Int) (hI : Inv f)
    (hc : chunkAt f.m_chunks p = some c) (hn : f.m_nextChunkPosition < f.m_size) :
    accounted (afterFull f p c.m_chunkSize us) = accounted f := by
  obtain ⟨hm, hp⟩ := chunkAt_mem hc
  have h1 := outstandingBytes_chunkErase hI.keys hm
  have h2 := newChunkSize_le f.m_currentChunkSize c.m_chunkSize us (f.m_size - f.m_nextChunkPosition)
  rw [hp] at h1
  unfold accounted afterFull
  simp only [outstandingBytes_cons]
  omega

theorem accounted_afterLast {f : AFile} {p : Nat} {c : Chunk} (hI : Inv f)
    (hc : chunkAt f.m_chunks p = some c) :
    accounted (afterLast f p c.m_chunkSize) = accounted f := by
  obtain ⟨hm, hp⟩ := chunkAt_mem hc
  have h1 := outstandingBytes_chunkErase hI.keys hm
  rw [hp] at h1
  unfold accounted afterLast
  simp only
  omega

theorem accounted_afterShort {f : AFile} {p d : Nat} {c : Chunk} (hI : Inv f)
    (hc : chunkAt f.m_chunks p = some c) (hd : d < c.m_chunkSize) :
    accounted (afterShort f p c.m_chunkSize d) = accounted f := by
  obtain ⟨hm, hp⟩ := chunkAt_mem hc
  have h1 := outstandingBytes_chunkErase hI.keys hm
  rw [hp] at h1
  unfold accounted afterShort
  simp only [outstandingBytes_cons]
  omega

theorem accounted_afterDropped {f : AFile} {c : Chunk} (hI : Inv f)
    (hc : chunkAt f.m_chunks 0 = some c) :
    accounted (afterLast f 0 0) + c.m_chunkSize = accounted f := by
  obtain ⟨hm, hp⟩ := chunkAt_mem hc
  have h1 := outstandingBytes_chunkErase hI.keys hm
  rw [hp] at h1
  unfold accounted afterLast
  simp only
  omega

theorem inv_afterFull {f : AFile} {p : Nat} {c : Chunk} (us : Int) (hI : Inv f)
    (hc : chunkAt f.m_chunks p = some c) (hn : f.m_nextChunkPosition < f.m_size) :
    Inv (afterFull f p c.m_chunkSize us) := by
  have hacc := accounted_afterFull us hI hc hn
  have h2 := newChunkSize_le f.m_currentChunkSize c.m_chunkSize us (f.m_size - f.m_nextChunkPosition)
  have h3 := newChunkSize_ge c.m_chunkSize us (f.m_size - f.m_nextChunkPosition) (hI.hint_ge hn)
  have hsz := hI.size_lt
  refine ⟨hI.size_lt, ?_, ?_, ?_, ?_, ?_, ?_, ?_, ?_, ?_, ?_⟩
  · show f.m_nextChunkPosition + _ ≤ f.m_size
    omega
  · intro _
    show 0 < f.m_nextChunkPosition + _
    have := hI.next_pos (by omega)
    omega
  · intro h
    exact newHint_ge c.m_chunkSize us (f.m_size - f.m_nextChunkPosition) (hI.hint_ge hn)
      (by
        have h : f.m_nextChunkPosition + _ < f.m_size := h
        omega)
  · exact newHint_lt c.m_chunkSize us _ hI.hint_lt
  · intro a ha
    show a.m_position + a.m_chunkSize ≤ f.m_nextChunkPosition + _
    rcases List.mem_cons.mp ha with rfl | ha
    · exact Nat.le_refl _
    · have := hI.inside a (mem_chunkErase.mp ha).1
      omega
  · intro a ha
    rcases List.mem_cons.mp ha with rfl | ha
    · exact h2.1
    · exact hI.small a (mem_chunkErase.mp ha).1
  · intro hs a ha
    rcases List.mem_cons.mp ha with rfl | ha
    · show 0 < newChunkSize _ _ _ _
      omega
    · exact hI.nonzero hs a (mem_chunkErase.mp ha).1
  · show List.Pairwise _ (_ :: chunkErase f.m_chunks p)
    rw [List.pairwise_cons]
    refine ⟨?_, hI.keys.filter _⟩
    intro a ha
    have ha1 := (mem_chunkErase.mp ha).1
    have := hI.inside a ha1
    have := hI.nonzero (by omega) a ha1
    show f.m_nextChunkPosition ≠ a.m_position
    omega
  · show List.Pairwise _ (_ :: chunkErase f.m_chunks p)
    rw [List.pairwise_cons]
    refine ⟨?_, hI.apart.filter _⟩
    intro a ha
    have := hI.inside a (mem_chunkErase.mp ha).1
    exact Or.inr this
  · rw [hacc]
    exact hI.account

theorem inv_afterLast {f : AFile} {p d : Nat} (hI : Inv f)
    (hacc : accounted (afterLast f p d) ≤ accounted f) : Inv (afterLast f p d) := by
  refine ⟨hI.size_lt, hI.next_le, hI.next_pos, hI.hint_ge, hI.hint_lt, ?_, ?_, ?_, ?_, ?_, ?_⟩
  · intro a ha
    exact hI.inside a (mem_chunkErase.mp ha).1
  · intro a ha
    exact hI.small a (mem_chunkErase.mp ha).1
  · intro hs a ha
    exact hI.nonzero hs a (mem_chunkErase.mp ha).1
  · exact hI.keys.filter _
  · exact hI.apart.filter _
  · exact Nat.le_trans hacc hI.account

theorem inv_afterShort {f : AFile} {p d : Nat} {c : Chunk} (hI : Inv f)
    (hc : chunkAt f.m_chunks p = some c) (hd : d < c.m_chunkSize) :
    Inv (afterShort f p c.m_chunkSize d) := by
  have hacc := accounted_afterShort hI hc hd
  obtain ⟨hm, hp⟩ := chunkAt_mem hc
  have hin := hI.inside c hm
  have hother : ∀ a ∈ chunkErase f.m_chunks p, Chunk.disjoint a c := by
    intro a ha
    obtain ⟨ha1, ha2⟩ := mem_chunkErase.mp ha
    have hne : a ≠ c := by
      rintro rfl
      exact ha2 hp
    exact hI.apart.forall disjoint_symm ha1 hm hne
  refine ⟨hI.size_lt, hI.next_le, hI.next_pos, hI.hint_ge, hI.hint_lt, ?_, ?_, ?_, ?_, ?_, ?_⟩
  · intro a ha
    rcases List.mem_cons.mp ha with rfl | ha
    · show p + d + (c.m_chunkSize - d) ≤ f.m_nextChunkPosition
      omega
    · exact hI.inside a (mem_chunkErase.mp ha).1
  · intro a ha
    rcases List.mem_cons.mp ha with rfl | ha
    · have := hI.small c hm
      show c.m_chunkSize - d ≤ _
      omega
    · exact hI.small a (mem_chunkErase.mp ha).1
  · intro hs a ha
    rcases List.mem_cons.mp ha with rfl | ha
    · show 0 < c.m_chunkSize - d
      omega
    · exact hI.nonzero hs a (mem_chunkErase.mp ha).1
  · show List.Pairwise _ (_ :: chunkErase f.m_chunks p)
    rw [List.pairwise_cons]
    refine ⟨?_, hI.keys.filter _⟩
    intro a ha
    have h1 := hother a ha
    have h2 := (mem_chunkErase.mp ha).2
    unfold Chunk.disjoint at h1
    show p + d ≠ a.m_position
    omega
  · show List.Pairwise _ (_ :: chunkErase f.m_chunks p)
    rw [List.pairwise_cons]
    refine ⟨?_, hI.apart.filter _⟩
    intro a ha
    have h1 := hother a ha
    unfold Chunk.disjoint at h1 ⊢
    show p + d + (c.m_chunkSize - d) ≤ a.m_position ∨ a.m_position + a.m_chunkSize ≤ p + d
    omega
  · rw [hacc]
    exact hI.account

/-! ## The fresh job -/

/-- One iteration of the loop creating the initial chunks, without the wrap-arounds. -/
theorem initialChunks_succ (i : Nat) (f : AFile) (h1 : f.m_nextChunkPosition ≤ f.m_size)
    (h2 : f.m_size < 2 ^ 64) (h3 : f.m_currentChunkSize < 2 ^ 32)
    (h4 : ∀ a ∈ f.m_chunks, a.m_position ≠ f.m_nextChunkPosition) :
    initialChunks (i + 1) f =
      if f.m_size ≤ f.m_nextChunkPosition + min (f.m_size - f.m_nextChunkPosition) f.m_currentChunkSize then
        { f with
          m_nextChunkPosition :=
            f.m_nextChunkPosition + min (f.m_size - f.m_nextChunkPosition) f.m_currentChunkSize
          m_chunks :=
            ⟨f.m_nextChunkPosition, min (f.m_size - f.m_nextChunkPosition) f.m_currentChunkSize⟩ ::
              f.m_chunks }
      else
        initialChunks i
          { f with
            m_nextChunkPosition :=
              f.m_nextChunkPosition + min (f.m_size - f.m_nextChunkPosition) f.m_currentChunkSize
            m_chunks :=
              ⟨f.m_nextChunkPosition, min (f.m_size - f.m_nextChunkPosition) f.m_currentChunkSize⟩ ::
                f.m_chunks } := by
  have e1 : (f.m_size + 2 ^ 64 - f.m_nextChunkPosition) % 2 ^ 64 = f.m_size - f.m_nextChunkPosition := by
    omega
  have e2 : (if f.m_size - f.m_nextChunkPosition > f.m_currentChunkSize then f.m_currentChunkSize
      else f.m_size - f.m_nextChunkPosition) =
      min (f.m_size - f.m_nextChunkPosition) f.m_currentChunkSize := by
    split_ifs <;> omega
  have e3 : min (f.m_size - f.m_nextChunkPosition) f.m_currentChunkSize % 2 ^ 32 =
      min (f.m_size - f.m_nextChunkPosition) f.m_currentChunkSize := by omega
  have e4 : (f.m_nextChunkPosition + min (f.m_size - f.m_nextChunkPosition) f.m_currentChunkSize) % 2 ^ 64
      = f.m_nextChunkPosition + min (f.m_size - f.m_nextChunkPosition) f.m_currentChunkSize := by omega
  have e5 := chunkInsert_absent (c := ⟨f.m_nextChunkPosition,
    min (f.m_size - f.m_nextChunkPosition) f.m_currentChunkSize⟩) h4
  rw [initialChunks]
  simp only [e1, e2, e3, e4, e5, ge_iff_le]

theorem fresh_small {S : Nat} (h : S ≤ 65536) :
    fresh S = ⟨S, S, 65536, 0, [⟨0, S⟩]⟩ := by
  unfold fresh StartCopying TryOpenFile AFile.AFile
  simp only [List.length_nil, if_true, Bool.false_eq_true, if_false]
  rw [initialChunks_succ 1 _ (Nat.zero_le _) (by show S < 2 ^ 64; omega) (by show (65536 : Nat) < 2 ^ 32; omega)
    (by intro a ha; cases ha)]
  simp only [Nat.sub_zero, Nat.zero_add, Nat.min_eq_left h, Nat.le_refl, if_true]

theorem fresh_medium {S : Nat} (h : 65536 < S) (h2 : S ≤ 131072) :
    fresh S = ⟨S, S, 65536, 0, [⟨65536, S - 65536⟩, ⟨0, 65536⟩]⟩ := by
  unfold fresh StartCopying TryOpenFile AFile.AFile
  simp only [List.length_nil, if_true, Bool.false_eq_true, if_false]
  rw [initialChunks_succ 1 _ (Nat.zero_le _) (by show S < 2 ^ 64; omega) (by show (65536 : Nat) < 2 ^ 32; omega)
    (by intro a ha; cases ha)]
  have e1 : min S 65536 = 65536 := by omega
  simp only [Nat.sub_zero, Nat.zero_add, e1, Nat.not_le.mpr h, if_false]
  rw [initialChunks_succ 0 _ (by show 65536 ≤ S; omega) (by show S < 2 ^ 64; omega) (by show (65536 : Nat) < 2 ^ 32; omega)
    (by intro a ha; simp at ha; subst ha; show (0 : Nat) ≠ 65536; omega)]
  have e2 : min (S - 65536) 65536 = S - 65536 := by omega
  have e3 : 65536 + (S - 65536) = S := by omega
  simp only [e2, e3, Nat.le_refl, if_true]

theorem fresh_large {S : Nat} (h : 131072 < S) (h2 : S < 2 ^ 64) :
    fresh S = ⟨S, 131072, 65536, 0, [⟨65536, 65536⟩, ⟨0, 65536⟩]⟩ := by
  unfold fresh StartCopying TryOpenFile AFile.AFile
  simp only [List.length_nil, if_true, Bool.false_eq_true, if_false]
  rw [initialChunks_succ 1 _ (Nat.zero_le _) h2 (by show (65536 : Nat) < 2 ^ 32; omega)
    (by intro a ha; cases ha)]
  have e1 : min S 65536 = 65536 := by omega
  have e0 : ¬ S ≤ 65536 := by omega
  simp only [Nat.sub_zero, Nat.zero_add, e1, e0, if_false]
  rw [initialChunks_succ 0 _ (by show 65536 ≤ S; omega) h2 (by show (65536 : Nat) < 2 ^ 32; omega)
    (by intro a ha; simp at ha; subst ha; show (0 : Nat) ≠ 65536; omega)]
  have e2 : min (S - 65536) 65536 = 65536 := by omega
  have e3 : ¬ S ≤ 65536 + 65536 := by omega
  simp only [e2, e3, if_false, initialChunks]

theorem inv_fresh {S : Nat} (hS : S < 2 ^ 64) : Inv (fresh S) := by
  rcases Nat.lt_or_ge 65536 S with h | h
  · rcases Nat.lt_or_ge 131072 S with h2 | h2
    · rw [fresh_large h2 hS]
      refine ⟨hS, ?_, ?_, ?_, ?_, ?_, ?_, ?_, ?_, ?_, ?_⟩
      · show 131072 ≤ S
        omega
      · intro _
        show 0 < 131072
        omega
      · intro _
        show 4096 ≤ 65536
        omega
      · show 65536 < 2 ^ 32
        omega
      · intro a ha
        simp only [List.mem_cons, List.mem_singleton, List.not_mem_nil, or_false] at ha
        rcases ha with rfl | rfl <;> simp
      · intro a ha
        simp only [List.mem_cons, List.mem_singleton, List.not_mem_nil, or_false] at ha
        rcases ha with rfl | rfl <;> simp
      · intro _ a ha
        simp only [List.mem_cons, List.mem_singleton, List.not_mem_nil, or_false] at ha
        rcases ha with rfl | rfl <;> simp
      · simp
      · simp [Chunk.disjoint]
      · show 0 + outstandingBytes [⟨65536, 65536⟩, ⟨0, 65536⟩] + (S - 131072) ≤ S
        simp only [outstandingBytes_cons, outstandingBytes_nil]
        omega
    · rw [fresh_medium h h2]
      refine ⟨hS, Nat.le_refl _, fun hp => hp, ?_, ?_, ?_, ?_, ?_, ?_, ?_, ?_⟩
      · intro hlt
        exact absurd hlt (Nat.lt_irrefl _)
      · show 65536 < 2 ^ 32
        omega
      · intro a ha
        simp only [List.mem_cons, List.mem_singleton, List.not_mem_nil, or_false] at ha
        rcases ha with rfl | rfl
        · show 65536 + (S - 65536) ≤ S
          omega
        · show 0 + 65536 ≤ S
          omega
      · intro a ha
        simp only [List.mem_cons, List.mem_singleton, List.not_mem_nil, or_false] at ha
        rcases ha with rfl | rfl
        · show S - 65536 ≤ 0x4000000
          omega
        · decide
      · intro _ a ha
        simp only [List.mem_cons, List.mem_singleton, List.not_mem_nil, or_false] at ha
        rcases ha with rfl | rfl
        · show 0 < S - 65536
          omega
        · decide
      · simp
      · simp [Chunk.disjoint]
      · show 0 + outstandingBytes [⟨65536, S - 65536⟩, ⟨0, 65536⟩] + (S - S) ≤ S
        simp only [outstandingBytes_cons, outstandingBytes_nil]
        omega
  · rw [fresh_small h]
    refine ⟨hS, Nat.le_refl _, fun hp => hp, ?_, ?_, ?_, ?_, ?_, ?_, ?_, ?_⟩
    · intro hlt
      exact absurd hlt (Nat.lt_irrefl _)
    · show 65536 < 2 ^ 32
      omega
    · intro a ha
      simp only [List.mem_singleton] at ha
      subst ha
      show 0 + S ≤ S
      omega
    · intro a ha
      simp only [List.mem_singleton] at ha
      subst ha
      show S ≤ 0x4000000
      omega
    · intro hp a ha
      simp only [List.mem_singleton] at ha
      subst ha
      exact hp
    · simp
    · simp
    · show 0 + outstandingBytes [⟨0, S⟩] + (S - S) ≤ S
      simp only [outstandingBytes_cons, outstandingBytes_nil]
      omega

/-- A fresh job accounts for every byte of the file. -/
theorem accounted_fresh {S : Nat} (hS : S < 2 ^ 64) : accounted (fresh S) = S := by
  rcases Nat.lt_or_ge 65536 S with h | h
  · rcases Nat.lt_or_ge 131072 S with h2 | h2
    · rw [fresh_large h2 hS]
      simp only [accounted, outstandingBytes_cons, outstandingBytes_nil]
      omega
    · rw [fresh_medium h h2]
      simp only [accounted, outstandingBytes_cons, outstandingBytes_nil]
      omega
  · rw [fresh_small h]
    simp only [accounted, outstandingBytes_cons, outstandingBytes_nil]
    omega

/-! ## Delivering completions -/

/-- The four ways a delivered completion changes a state that satisfies the invariant. -/
theorem deliver_cases {f f1 : AFile} {e : Completion} (hI : Inv f) (h : deliver f e = some f1) :
    ∃ c, chunkAt f.m_chunks e.position = some c ∧ e.dataSize ≤ c.m_chunkSize ∧
      ((e.dataSize = c.m_chunkSize ∧ f.m_nextChunkPosition < f.m_size ∧
          f1 = afterFull f e.position c.m_chunkSize e.microSeconds) ∨
       (e.dataSize = c.m_chunkSize ∧ ¬ f.m_nextChunkPosition < f.m_size ∧
          f1 = afterLast f e.position c.m_chunkSize) ∨
       (e.dataSize < c.m_chunkSize ∧ 0 < e.position + e.dataSize ∧
          f1 = afterShort f e.position c.m_chunkSize e.dataSize) ∨
       (e.dataSize < c.m_chunkSize ∧ e.position = 0 ∧ e.dataSize = 0 ∧ f1 = afterLast f 0 0)) := by
  unfold deliver at h
  cases hc : chunkAt f.m_chunks e.position with
  | none => simp [hc] at h
  | some c =>
    simp only [hc] at h
    split_ifs at h with hle
    refine ⟨c, rfl, hle, ?_⟩
    rcases Nat.eq_or_lt_of_le hle with heq | hlt
    · by_cases hn : f.m_nextChunkPosition < f.m_size
      · left
        rw [heq, ReportCompletion_full _ _ hI hc hn] at h
        exact ⟨heq, hn, (Option.some.inj h).symm⟩
      · right; left
        rw [heq, ReportCompletion_last _ _ hI hc hn] at h
        exact ⟨heq, hn, (Option.some.inj h).symm⟩
    · rcases Nat.eq_zero_or_pos (e.position + e.dataSize) with hz | hpos
      · right; right; right
        have hp0 : e.position = 0 := by omega
        have hd0 : e.dataSize = 0 := by omega
        rw [hp0] at hc
        rw [hp0, hd0, ReportCompletion_dropped _ _ hI hc (by omega)] at h
        exact ⟨hlt, hp0, hd0, (Option.some.inj h).symm⟩
      · right; right; left
        rw [ReportCompletion_short _ _ hI hc hlt hpos] at h
        exact ⟨hlt, hpos, (Option.some.inj h).symm⟩

theorem inv_deliver {f f1 : AFile} {e : Completion} (hI : Inv f) (h : deliver f e = some f1) :
    Inv f1 := by
  obtain ⟨c, hc, _, hcase⟩ := deliver_cases hI h
  rcases hcase with ⟨_, hn, rfl⟩ | ⟨_, _, rfl⟩ | ⟨hlt, _, rfl⟩ | ⟨_, hp, _, rfl⟩
  · exact inv_afterFull _ hI hc hn
  · exact inv_afterLast hI (Nat.le_of_eq (accounted_afterLast hI hc))
  · exact inv_afterShort hI hc hlt
  · rw [hp] at hc
    have := accounted_afterDropped hI hc
    exact inv_afterLast hI (by omega)

theorem inv_run {es : List Completion} {f f1 : AFile} (hI : Inv f) (h : run f es = some f1) :
    Inv f1 := by
  induction es generalizing f with
  | nil =>
    simp only [run, Option.some.injEq] at h
    exact h ▸ hI
  | cons e es ih =>
    simp only [run] at h
    cases hd : deliver f e with
    | none => simp [hd] at h
    | some f2 =>
      simp only [hd] at h
      exact ih (inv_deliver hI hd) h

/-- A delivered completion never makes the outstanding table longer. -/
theorem length_deliver_le {f f1 : AFile} {e : Completion} (h : deliver f e = some f1) :
    f1.m_chunks.length ≤ f.m_chunks.length := by
  unfold deliver at h
  cases hc : chunkAt f.m_chunks e.position with
  | none => simp [hc] at h
  | some c =>
    simp only [hc] at h
    split_ifs at h with hle
    obtain ⟨hm, hp⟩ := chunkAt_mem hc
    have h1 := length_chunkErase_lt hm
    rw [hp] at h1
    have h2 := fun a => length_chunkInsert_le (chunkErase f.m_chunks e.position) a
    unfold ReportCompletion at h
    rw [hc] at h
    simp only at h
    split_ifs at h <;> cases h <;> simp only
    all_goals first
      | omega
      | (rename_i a; omega)
      | exact Nat.le_trans (h2 _) h1

/-! ## Runs in which every chunk is read in full -/

theorem m_size_fresh {S : Nat} (hS : S < 2 ^ 64) : (fresh S).m_size = S := by
  rcases Nat.lt_or_ge 65536 S with h | h
  · rcases Nat.lt_or_ge 131072 S with h2 | h2
    · rw [fresh_large h2 hS]
    · rw [fresh_medium h h2]
  · rw [fresh_small h]

theorem exact_fresh {S : Nat} (hS : S < 2 ^ 64) : Exact (fresh S) := by
  refine ⟨by rw [accounted_fresh hS, m_size_fresh hS], ?_⟩
  intro _
  rcases Nat.lt_or_ge 65536 S with h | h
  · rcases Nat.lt_or_ge 131072 S with h2 | h2
    · rw [fresh_large h2 hS]
      exact List.cons_ne_nil _ _
    · rw [fresh_medium h h2]
      exact List.cons_ne_nil _ _
  · rw [fresh_small h]
    exact List.cons_ne_nil _ _

theorem m_bytesCopied_fresh {S : Nat} (hS : S < 2 ^ 64) : (fresh S).m_bytesCopied = 0 := by
  rcases Nat.lt_or_ge 65536 S with h | h
  · rcases Nat.lt_or_ge 131072 S with h2 | h2
    · rw [fresh_large h2 hS]
    · rw [fresh_medium h h2]
  · rw [fresh_small h]

theorem chunkAt_of_mem {m : List Chunk} {c : Chunk}
    (hk : m.Pairwise (fun a b => a.m_position ≠ b.m_position)) (h : c ∈ m) :
    chunkAt m c.m_position = some c := by
  induction m with
  | nil => cases h
  | cons a m ih =>
    rw [List.pairwise_cons] at hk
    rcases List.mem_cons.mp h with rfl | h
    · simp [chunkAt]
    · have hne : a.m_position ≠ c.m_position := hk.1 c h
      have := ih hk.2 h
      unfold chunkAt at this ⊢
      rw [List.find?_cons_of_neg _ (by simpa using hne)]
      exact this

theorem fullRead_eq {f : AFile} {e : Completion} {c : Chunk}
    (hc : chunkAt f.m_chunks e.position = some c) (h : fullRead f e = true) :
    e.dataSize = c.m_chunkSize := by
  unfold fullRead at h
  rw [hc] at h
  simpa using h

/-- A completion that read its whole chunk keeps all bytes accounted for and counts at
least one more byte as copied. -/
theorem full_step {f f1 : AFile} {e : Completion} (hI : Inv f) (hE : Exact f)
    (hpos : 0 < f.m_size) (hfull : fullRead f e = true) (h : deliver f e = some f1) :
    Exact f1 ∧ f1.m_size = f.m_size ∧ f.m_bytesCopied < f1.m_bytesCopied := by
  obtain ⟨c, hc, _, hcase⟩ := deliver_cases hI h
  have hd := fullRead_eq hc hfull
  have hcpos := hI.nonzero hpos c (chunkAt_mem hc).1
  rcases hcase with ⟨_, hn, rfl⟩ | ⟨_, hn, rfl⟩ | ⟨hlt, _, _⟩ | ⟨hlt, _, _, _⟩
  · refine ⟨⟨?_, ?_⟩, rfl, ?_⟩
    · rw [accounted_afterFull _ hI hc hn]
      exact hE.account
    · intro _
      exact List.cons_ne_nil _ _
    · show f.m_bytesCopied < f.m_bytesCopied + c.m_chunkSize
      omega
  · refine ⟨⟨?_, ?_⟩, rfl, ?_⟩
    · rw [accounted_afterLast hI hc]
      exact hE.account
    · intro hlt
      exact absurd hlt hn
    · show f.m_bytesCopied < f.m_bytesCopied + c.m_chunkSize
      omega
  · omega
  · omega

/-- Every outstanding chunk can report a full read. -/
theorem can_step {f : AFile} {c : Chunk} (ok : Bool) (us : Int) (hI : Inv f)
    (hc : c ∈ f.m_chunks) :
    fullRead f ⟨c.m_position, ok, c.m_chunkSize, us⟩ = true ∧
      ∃ f1, deliver f ⟨c.m_position, ok, c.m_chunkSize, us⟩ = some f1 := by
  have hat := chunkAt_of_mem hI.keys hc
  refine ⟨by simp [fullRead, hat], ?_⟩
  unfold deliver
  simp only [hat, Nat.le_refl, if_true]
  by_cases hn : f.m_nextChunkPosition < f.m_size
  · exact ⟨_, ReportCompletion_full ok us hI hat hn⟩
  · exact ⟨_, ReportCompletion_last ok us hI hat hn⟩

theorem runFull_invariant {es : List Completion} {f f1 : AFile} (hI : Inv f) (hE : Exact f)
    (hpos : 0 < f.m_size) (h : runFull f es = some f1) :
    Inv f1 ∧ Exact f1 ∧ f1.m_size = f.m_size ∧ f.m_bytesCopied + es.length ≤ f1.m_bytesCopied := by
  induction es generalizing f with
  | nil =>
    simp only [runFull, Option.some.injEq] at h
    subst h
    exact ⟨hI, hE, rfl, Nat.le_refl _⟩
  | cons e es ih =>
    simp only [runFull] at h
    split_ifs at h with hfull
    cases hd : deliver f e with
    | none => simp [hd] at h
    | some f2 =>
      simp only [hd] at h
      obtain ⟨hE2, hs2, hb2⟩ := full_step hI hE hpos hfull hd
      obtain ⟨hI3, hE3, hs3, hb3⟩ := ih (inv_deliver hI hd) hE2 (by omega) h
      refine ⟨hI3, hE3, by omega, ?_⟩
      simp only [List.length_cons]
      omega

theorem exact_copied_le {f : AFile} (hE : Exact f) : f.m_bytesCopied ≤ f.m_size := by
  have := hE.account
  unfold accounted at this
  omega

theorem exact_done_of_empty {f : AFile} (hI : Inv f) (hE : Exact f) (h : f.m_chunks = []) :
    f.m_bytesCopied = f.m_size ∧ f.m_nextChunkPosition = f.m_size := by
  have h1 := hE.account
  have h2 : ¬ f.m_nextChunkPosition < f.m_size := fun hlt => hE.busy hlt h
  have h3 := hI.next_le
  unfold accounted at h1
  rw [h, outstandingBytes_nil] at h1
  omega

theorem exact_empty_of_done {f : AFile} (hI : Inv f) (hE : Exact f) (hpos : 0 < f.m_size)
    (h : f.m_bytesCopied = f.m_size) : f.m_chunks = [] := by
  have h1 := hE.account
  unfold accounted at h1
  cases hm : f.m_chunks with
  | nil => rfl
  | cons c m =>
    have hc : c ∈ f.m_chunks := by rw [hm]; exact List.mem_cons_self _ _
    have h2 := hI.nonzero hpos c hc
    have h3 := le_outstandingBytes hc
    omega

/-- From any state with all bytes accounted for, completing the chunk at the head of the
table again and again empties the table within as many completions as bytes are missing. -/
theorem exists_finish (n : Nat) : ∀ f : AFile, Inv f → Exact f → 0 < f.m_size →
    f.m_size - f.m_bytesCopied ≤ n →
    ∃ es f1, es.length ≤ n ∧ runFull f es = some f1 ∧ f1.m_chunks = [] := by
  induction n with
  | zero =>
    intro f hI hE hpos hn
    have := exact_copied_le hE
    exact ⟨[], f, Nat.le_refl _, rfl, exact_empty_of_done hI hE hpos (by omega)⟩
  | succ n ih =>
    intro f hI hE hpos hn
    cases hm : f.m_chunks with
    | nil => exact ⟨[], f, Nat.zero_le _, rfl, hm⟩
    | cons c m =>
      have hc : c ∈ f.m_chunks := by rw [hm]; exact List.mem_cons_self _ _
      obtain ⟨hfull, f2, hd⟩ := can_step true 0 hI hc
      obtain ⟨hE2, hs2, hb2⟩ := full_step hI hE hpos hfull hd
      obtain ⟨es, f3, hlen, hrun, hempty⟩ := ih f2 (inv_deliver hI hd) hE2 (by omega) (by omega)
      refine ⟨⟨c.m_position, true, c.m_chunkSize, 0⟩ :: es, f3, ?_, ?_, hempty⟩
      · simp only [List.length_cons]
        omega
      · simp only [runFull, hfull, if_true, hd]
        exact hrun

/-- What `Chunk::Start` reports never exceeds the requested size, and a failure is always
a short read. -/
theorem readLoop_le (chunkSize : Nat) (hs : chunkSize < 2 ^ 32) :
    ∀ (reads : List (Nat × Bool)) (dataSize d : Nat) (ok : Bool), dataSize ≤ chunkSize →
      readLoop chunkSize reads dataSize = some (d, ok) →
      d ≤ chunkSize ∧ (ok = false → d < chunkSize) := by
  intro reads
  induction reads with
  | nil =>
    intro dataSize d ok hle h
    simp only [readLoop] at h
    split_ifs at h
    simp only [Option.some.injEq, Prod.mk.injEq] at h
    obtain ⟨rfl, rfl⟩ := h
    exact ⟨hle, fun hf => by cases hf⟩
  | cons r rest ih =>
    intro dataSize d ok hle h
    obtain ⟨bytes, eof⟩ := r
    simp only [readLoop] at h
    split_ifs at h with hlt hne
    · simp only [Option.some.injEq, Prod.mk.injEq] at h
      obtain ⟨rfl, rfl⟩ := h
      have hb : min bytes (min 16384 (chunkSize - dataSize)) < min 16384 (chunkSize - dataSize) := by
        have := Nat.min_le_right bytes (min 16384 (chunkSize - dataSize))
        omega
      have hmod : (dataSize + min bytes (min 16384 (chunkSize - dataSize))) % 2 ^ 32 =
          dataSize + min bytes (min 16384 (chunkSize - dataSize)) := by omega
      rw [hmod]
      constructor
      · omega
      · intro _
        omega
    · have hmod : (dataSize + min bytes (min 16384 (chunkSize - dataSize))) % 2 ^ 32 =
          dataSize + min bytes (min 16384 (chunkSize - dataSize)) := by omega
      rw [hmod] at h
      exact ih _ d ok (by omega) h
    · simp only [Option.some.injEq, Prod.mk.injEq] at h
      obtain ⟨rfl, rfl⟩ := h
      exact ⟨hle, fun hf => by cases hf⟩

theorem Start_le (c : Chunk) (opened : Bool) (reads : List (Nat × Bool)) (d : Nat) (ok : Bool)
    (hs : c.m_chunkSize < 2 ^ 32) (h : Chunk.Start c opened reads = some (d, ok)) :
    d ≤ c.m_chunkSize := by
  unfold Chunk.Start at h
  split_ifs at h
  · exact (readLoop_le c.m_chunkSize hs reads 0 d ok (Nat.zero_le _) h).1
  · simp only [Option.some.injEq, Prod.mk.injEq] at h
    omega

/-- The outcomes of `Chunk::Start` used below: a failed first read, a source that cannot be
opened, and an end of stream after 50 of 100 bytes. -/
theorem Start_outcomes :
    Chunk.Start ⟨0, 100⟩ true [(0, false)] = some (0, false) ∧
      Chunk.Start ⟨0, 100⟩ false [] = some (0, false) ∧
      Chunk.Start ⟨0, 100⟩ true [(50, true)] = some (50, true) ∧
      Chunk.Start ⟨0, 65536⟩ true [(16384, false), (16384, false), (16384, false), (16384, false)] =
        some (65536, true) :=
  ⟨by decide, by decide, by decide, by decide⟩

/-- A delivered completion other than "nothing read at position 0" keeps every byte
accounted for. -/
theorem accounted_deliver {f f1 : AFile} {e : Completion} (hI : Inv f)
    (h : deliver f e = some f1) (hp : 0 < e.position + e.dataSize) :
    accounted f1 = accounted f ∧ f1.m_size = f.m_size := by
  obtain ⟨c, hc, _, hcase⟩ := deliver_cases hI h
  rcases hcase with ⟨_, hn, rfl⟩ | ⟨_, _, rfl⟩ | ⟨hlt, _, rfl⟩ | ⟨_, hp0, hd0, _⟩
  · exact ⟨accounted_afterFull _ hI hc hn, rfl⟩
  · exact ⟨accounted_afterLast hI hc, rfl⟩
  · exact ⟨accounted_afterShort hI hc hlt, rfl⟩
  · omega

/-- The partition invariant away from the dropped chunk: along completions none of which
reports "nothing read at position 0", copied, outstanding and unscheduled bytes add up to
the file size. -/
theorem accounted_run (S : Nat) (hS : S < 2 ^ 64) (es : List Completion) (f : AFile)
    (hrun : run (fresh S) es = some f) (hp : ∀ e ∈ es, 0 < e.position + e.dataSize) :
    f.m_bytesCopied + outstandingBytes f.m_chunks + (f.m_size - f.m_nextChunkPosition) =
      f.m_size := by
  have key : ∀ (es : List Completion) (g g1 : AFile), Inv g → run g es = some g1 →
      (∀ e ∈ es, 0 < e.position + e.dataSize) →
      accounted g1 = accounted g ∧ g1.m_size = g.m_size := by
    intro es
    induction es with
    | nil =>
      intro g g1 _ h _
      simp only [run, Option.some.injEq] at h
      rw [h]
      exact ⟨rfl, rfl⟩
    | cons e es ih =>
      intro g g1 hI h hpos
      simp only [run] at h
      cases hd : deliver g e with
      | none => simp [hd] at h
      | some g2 =>
        simp only [hd] at h
        have h1 := accounted_deliver hI hd (hpos e (List.mem_cons_self _ _))
        have h2 := ih g2 g1 (inv_deliver hI hd) h (fun x hx => hpos x (List.mem_cons_of_mem _ hx))
        exact ⟨h2.1.trans h1.1, h2.2.trans h1.2⟩
  have h := key es (fresh S) f (inv_fresh hS) hrun hp
  have h1 := accounted_fresh hS
  have h2 := m_size_fresh hS
  show accounted f = f.m_size
  omega

/-- Every state reached from a fresh job meets the conditions under which a short read is
scheduled again: no other chunk starts inside the range of an outstanding chunk, and the
sizes and counters stay within their machine ranges. -/
theorem short_read_conditions_of_run (S : Nat) (es : List Completion) (f : AFile) (p d : Nat)
    (c : Chunk) (hS : S < 2 ^ 64) (hrun : run (fresh S) es = some f)
    (hc : chunkAt f.m_chunks p = some c) (hd : d < c.m_chunkSize) :
    (∀ a ∈ f.m_chunks, a.m_position ≠ p → a.m_position ≠ p + d) ∧
      c.m_chunkSize < 2 ^ 32 ∧ p + d < 2 ^ 64 ∧ f.m_bytesCopied + d < 2 ^ 64 := by
  have hI := inv_run (inv_fresh hS) hrun
  obtain ⟨hm, hcp⟩ := chunkAt_mem hc
  have h1 := hI.inside c hm
  have h2 := hI.small c hm
  have h3 := hI.next_le
  have h4 := hI.size_lt
  refine ⟨?_, by omega, by omega, inv_bytes_lt hI hm (Nat.le_of_lt hd)⟩
  intro a ha hne
  have hac : a ≠ c := by
    rintro rfl
    exact hne hcp
  have := hI.apart.forall disjoint_symm ha hm hac
  unfold Chunk.disjoint at this
  omega

/-! ## The claims -/

/-- C1 (partition invariant), evaluated where the code breaks it.  A fresh job on a 100-byte
file has the single chunk `[0, 100)`.  When that chunk reports a completion with no byte read,
`ReportCompletion` computes `newPosition = 0`, takes it for "no new chunk" and drops the range:
afterwards nothing is copied, nothing is outstanding and nothing is left to schedule, so the
three parts account for 0 bytes of the 100. -/
theorem partition_lost_at_position_zero :
    ∃ f, run (fresh 100) [⟨0, false, 0, 0⟩] = some f ∧
      f.m_bytesCopied + outstandingBytes f.m_chunks + (f.m_size - f.m_nextChunkPosition) = 0 ∧
      f.m_size = 100 :=
  ⟨⟨100, 100, 65536, 0, []⟩, by decide, by decide, rfl⟩

/-- C2 (a failed read is scheduled again), evaluated where the code misses it.  The chunk at
position 0 of a fresh 100-byte job is outstanding with 100 requested bytes; reporting its
failure with 0 bytes read leaves the outstanding table empty instead of holding the chunk
`[0, 100)` again. -/
theorem failed_first_chunk_not_rescheduled :
    chunkAt (fresh 100).m_chunks 0 = some ⟨0, 100⟩ ∧
      ReportCompletion (fresh 100) 0 false 0 0 = some ⟨100, 100, 65536, 0, []⟩ :=
  ⟨by decide, by decide⟩

/-- C3 as stated fails: a successful short read of 50 of the 100 requested bytes leaves the
successor chunk `[50, 100)` in the table, which is not the previous table minus the chunk. -/
theorem short_success_has_successor :
    ReportCompletion (fresh 100) 0 true 50 0 = some ⟨100, 100, 65536, 50, [⟨50, 50⟩]⟩ ∧
      [(⟨50, 50⟩ : Chunk)] ≠ chunkErase (fresh 100).m_chunks 0 :=
  ⟨by decide, by decide⟩

/-- C3 amended: in any job state, fresh or resumed, let the chunk at `p` be outstanding with a
requested size below `2 ^ 32`, and let its completion be reported as success with `d` bytes
read, `d` below the requested size, `0 < p + d < 2 ^ 64`, while no other chunk of the table
starts at `p + d`.  Then `ReportCompletion` treats it like a failed read: the table afterwards
is the previous table minus that chunk plus the successor `[p + d, p + requestedSize)`; the
next position, the file size and the hint are unchanged, and `d` bytes are added to
`m_bytesCopied` in `uint64_t` arithmetic. -/
theorem short_success_reschedules (f : AFile) (p d : Nat) (c : Chunk) (us : Int)
    (hc : chunkAt f.m_chunks p = some c) (hd : d < c.m_chunkSize) (hpos : 0 < p + d)
    (hkey : ∀ a ∈ f.m_chunks, a.m_position ≠ p → a.m_position ≠ p + d)
    (hs : c.m_chunkSize < 2 ^ 32) (hp : p + d < 2 ^ 64) :
    ∃ f1, ReportCompletion f p true d us = some f1 ∧
      f1.m_chunks = ⟨p + d, c.m_chunkSize - d⟩ :: chunkErase f.m_chunks p ∧
      f1.m_nextChunkPosition = f.m_nextChunkPosition ∧
      f1.m_size = f.m_size ∧
      f1.m_currentChunkSize = f.m_currentChunkSize ∧
      f1.m_bytesCopied = (f.m_bytesCopied + d) % 2 ^ 64 := by
  obtain ⟨_, hcp⟩ := chunkAt_mem hc
  have h5 : ∀ a ∈ chunkErase f.m_chunks p,
      a.m_position ≠ (⟨p + d, c.m_chunkSize - d⟩ : Chunk).m_position := by
    intro a ha
    obtain ⟨ha1, ha2⟩ := mem_chunkErase.mp ha
    exact hkey a ha1 ha2
  have e1 : (c.m_position + d) % 2 ^ 64 = p + d := by
    rw [Nat.mod_eq_of_lt (by omega), hcp]
  have e2 : (c.m_chunkSize + 2 ^ 32 - d) % 2 ^ 32 = c.m_chunkSize - d := by omega
  unfold ReportCompletion
  rw [hc]
  simp only [if_neg (Nat.ne_of_lt hd), e1, e2, gt_iff_lt, hpos, if_pos, chunkInsert_absent h5]
  exact ⟨_, rfl, rfl, rfl, rfl, rfl, rfl⟩

theorem short_success_reschedules_witness :
    (chunkAt (⟨50, 100, 65536, 0, [⟨0, 100⟩]⟩ : AFile).m_chunks 0 = some ⟨0, 100⟩ ∧
      Chunk.Start ⟨0, 100⟩ true [(50, true)] = some (50, true)) ∧
    ∃ f1, ReportCompletion ⟨50, 100, 65536, 0, [⟨0, 100⟩]⟩ 0 true 50 7 = some f1 ∧
      f1.m_chunks = ⟨0 + 50, 100 - 50⟩ :: chunkErase [⟨0, 100⟩] 0 ∧
      f1.m_nextChunkPosition = 100 ∧
      f1.m_size = 50 ∧
      f1.m_currentChunkSize = 65536 ∧
      f1.m_bytesCopied = (0 + 50) % 2 ^ 64 :=
  ⟨⟨by decide, by decide⟩,
    short_success_reschedules ⟨50, 100, 65536, 0, [⟨0, 100⟩]⟩ 0 50 ⟨0, 100⟩ 7
      (by decide) (by decide) (by decide) (by decide) (by decide) (by decide)⟩

/-- C4: in every state reached from a fresh job by completions that read at most the
requested size, the outstanding chunks are pairwise disjoint: no byte offset lies in the
ranges of two entries of the table. -/
theorem outstanding_chunks_disjoint (S : Nat) (es : List Completion) (f : AFile)
    (hS : S < 2 ^ 64) (hrun : run (fresh S) es = some f) :
    f.m_chunks.Pairwise (fun a b => ∀ x,
      ¬ (a.m_position ≤ x ∧ x < a.m_position + a.m_chunkSize ∧
         b.m_position ≤ x ∧ x < b.m_position + b.m_chunkSize)) := by
  have hI := inv_run (inv_fresh hS) hrun
  refine hI.apart.imp ?_
  intro a b hab x
  unfold Chunk.disjoint at hab
  omega

theorem outstanding_chunks_disjoint_witness :
    run (fresh 150000000) [⟨0, true, 65536, 5000000⟩, ⟨65536, false, 1000, 7⟩] =
      some ⟨150000000, 1441792, 1310720, 66536, [⟨66536, 64536⟩, ⟨131072, 1310720⟩]⟩ ∧
    [(⟨66536, 64536⟩ : Chunk), ⟨131072, 1310720⟩].Pairwise (fun a b => ∀ x,
      ¬ (a.m_position ≤ x ∧ x < a.m_position + a.m_chunkSize ∧
         b.m_position ≤ x ∧ x < b.m_position + b.m_chunkSize)) :=
  ⟨by decide,
    outstanding_chunks_disjoint 150000000 [⟨0, true, 65536, 5000000⟩, ⟨65536, false, 1000, 7⟩]
      ⟨150000000, 1441792, 1310720, 66536, [⟨66536, 64536⟩, ⟨131072, 1310720⟩]⟩
      (by decide) (by decide)⟩

/-- C9: a fresh job holds one or two initial chunks, each of size min(65536, bytes left at
its position); a delivered completion never lengthens the outstanding table; so every state
reached from a fresh job holds at most two chunks. -/
theorem outstanding_at_most_two (S : Nat) (hS : S < 2 ^ 64) :
    (1 ≤ (fresh S).m_chunks.length ∧ (fresh S).m_chunks.length ≤ 2) ∧
    ((fresh S).m_chunks = [⟨0, min 65536 S⟩] ∨
      (fresh S).m_chunks = [⟨65536, min 65536 (S - 65536)⟩, ⟨0, min 65536 S⟩]) ∧
    (∀ f e f1, deliver f e = some f1 → f1.m_chunks.length ≤ f.m_chunks.length) ∧
    (∀ es f, run (fresh S) es = some f → f.m_chunks.length ≤ 2) := by
  have hfresh : (fresh S).m_chunks = [⟨0, min 65536 S⟩] ∨
      (fresh S).m_chunks = [⟨65536, min 65536 (S - 65536)⟩, ⟨0, min 65536 S⟩] := by
    rcases Nat.lt_or_ge 65536 S with h | h
    · right
      rcases Nat.lt_or_ge 131072 S with h2 | h2
      · rw [fresh_large h2 hS]
        have e1 : min 65536 (S - 65536) = 65536 := by omega
        have e2 : min 65536 S = 65536 := by omega
        rw [e1, e2]
      · rw [fresh_medium h h2]
        have e1 : min 65536 (S - 65536) = S - 65536 := by omega
        have e2 : min 65536 S = 65536 := by omega
        rw [e1, e2]
    · left
      rw [fresh_small h]
      have e2 : min 65536 S = S := by omega
      rw [e2]
  have hlen : 1 ≤ (fresh S).m_chunks.length ∧ (fresh S).m_chunks.length ≤ 2 := by
    rcases hfresh with h | h <;> rw [h] <;> simp
  refine ⟨hlen, hfresh, fun f e f1 h => length_deliver_le h, ?_⟩
  have key : ∀ (es : List Completion) (f f1 : AFile), run f es = some f1 →
      f1.m_chunks.length ≤ f.m_chunks.length := by
    intro es
    induction es with
    | nil =>
      intro f f1 h
      simp only [run, Option.some.injEq] at h
      rw [h]
    | cons e es ih =>
      intro f f1 h
      simp only [run] at h
      cases hd : deliver f e with
      | none => simp [hd] at h
      | some f2 =>
        simp only [hd] at h
        exact Nat.le_trans (ih f2 f1 h) (length_deliver_le hd)
  intro es f hrun
  exact Nat.le_trans (key es _ f hrun) hlen.2

theorem outstanding_at_most_two_witness :
    100000 < 2 ^ 64 ∧
    (1 ≤ (fresh 100000).m_chunks.length ∧ (fresh 100000).m_chunks.length ≤ 2) ∧
    ((fresh 100000).m_chunks = [⟨0, min 65536 100000⟩] ∨
      (fresh 100000).m_chunks = [⟨65536, min 65536 (100000 - 65536)⟩, ⟨0, min 65536 100000⟩]) ∧
    (∀ f e f1, deliver f e = some f1 → f1.m_chunks.length ≤ f.m_chunks.length) ∧
    (∀ es f, run (fresh 100000) es = some f → f.m_chunks.length ≤ 2) :=
  ⟨by decide, outstanding_at_most_two 100000 (by decide)⟩

/-- C5: for a fully read chunk with bytes left to schedule, whatever the table, the hint,
the elapsed time and the remaining size, `ReportCompletion` returns, the size it computes for
the successor is at most 64 MiB and at most the bytes not yet scheduled, and the only chunk
it can add to the table is the successor of that size at the old next position. -/
theorem successor_size_ceiling (f : AFile) (p : Nat) (c : Chunk) (ok : Bool) (us : Int)
    (hc : chunkAt f.m_chunks p = some c) (hn : f.m_nextChunkPosition < f.m_size) :
    ∃ f1 n, ReportCompletion f p ok c.m_chunkSize us = some f1 ∧
      n = newChunkSize f.m_currentChunkSize c.m_chunkSize us (f.m_size - f.m_nextChunkPosition) ∧
      n ≤ 67108864 ∧ n ≤ f.m_size - f.m_nextChunkPosition ∧
      f1.m_nextChunkPosition = (f.m_nextChunkPosition + n) % 2 ^ 64 ∧
      ∀ a ∈ f1.m_chunks, a ∈ f.m_chunks ∨ a = ⟨f.m_nextChunkPosition, n⟩ := by
  have hb := newChunkSize_le f.m_currentChunkSize c.m_chunkSize us (f.m_size - f.m_nextChunkPosition)
  unfold ReportCompletion
  rw [hc]
  simp only [if_pos, hn]
  refine ⟨_, _, rfl, rfl, hb.1, hb.2, rfl, ?_⟩
  intro a ha
  simp only at ha
  have herase : ∀ b ∈ chunkErase f.m_chunks p, b ∈ f.m_chunks := fun b hb => (mem_chunkErase.mp hb).1
  split_ifs at ha
  · unfold chunkInsert at ha
    split_ifs at ha
    · exact Or.inl (herase a ha)
    · rcases List.mem_cons.mp ha with h | h
      · exact Or.inr h
      · exact Or.inl (herase a h)
  · exact Or.inl (herase a ha)

theorem successor_size_ceiling_witness :
    chunkAt (fresh 150000000).m_chunks 0 = some ⟨0, 65536⟩ ∧
    (fresh 150000000).m_nextChunkPosition < (fresh 150000000).m_size ∧
    ∃ f1 n, ReportCompletion (fresh 150000000) 0 true 65536 11 = some f1 ∧
      n = newChunkSize 65536 65536 11 (150000000 - 131072) ∧
      n ≤ 67108864 ∧ n ≤ 150000000 - 131072 ∧
      f1.m_nextChunkPosition = (131072 + n) % 2 ^ 64 ∧
      ∀ a ∈ f1.m_chunks, a ∈ (fresh 150000000).m_chunks ∨ a = ⟨131072, n⟩ :=
  ⟨by decide, by decide,
    successor_size_ceiling (fresh 150000000) 0 ⟨0, 65536⟩ true 11 (by decide) (by decide)⟩

/-- C6 as stated fails: with 100 bytes left to schedule after the two initial chunks, the
successor of the first chunk has 100 bytes, fewer than 4096. -/
theorem successor_below_floor :
    ReportCompletion (fresh 131172) 0 true 65536 0 =
        some ⟨131172, 131172, 100, 65536, [⟨131072, 100⟩, ⟨65536, 65536⟩]⟩ ∧
      newChunkSize 65536 65536 0 (131172 - 131072) = 100 :=
  ⟨by decide, by decide⟩

/-- C6 amended: in every state reached from a fresh job, for any elapsed time, the successor
of a fully read chunk has at least 4096 bytes unless it takes all the bytes that remain to be
scheduled. -/
theorem successor_size_floor (S : Nat) (es : List Completion) (f : AFile) (p : Nat)
    (c : Chunk) (ok : Bool) (us : Int) (hS : S < 2 ^ 64) (hrun : run (fresh S) es = some f)
    (hc : chunkAt f.m_chunks p = some c) (hn : f.m_nextChunkPosition < f.m_size) :
    ∃ f1 n, ReportCompletion f p ok c.m_chunkSize us = some f1 ∧
      f1.m_chunks = ⟨f.m_nextChunkPosition, n⟩ :: chunkErase f.m_chunks p ∧
      (4096 ≤ n ∨ n = f.m_size - f.m_nextChunkPosition) := by
  have hI := inv_run (inv_fresh hS) hrun
  exact ⟨_, _, ReportCompletion_full ok us hI hc hn, rfl,
    newChunkSize_ge c.m_chunkSize us _ (hI.hint_ge hn)⟩

theorem successor_size_floor_witness :
    chunkAt (fresh 150000000).m_chunks 0 = some ⟨0, 65536⟩ ∧
    (fresh 150000000).m_nextChunkPosition < (fresh 150000000).m_size ∧
    ∃ f1 n, ReportCompletion (fresh 150000000) 0 true 65536 5000000 = some f1 ∧
      f1.m_chunks = ⟨131072, n⟩ :: chunkErase (fresh 150000000).m_chunks 0 ∧
      (4096 ≤ n ∨ n = 150000000 - 131072) :=
  ⟨by decide, by decide,
    successor_size_floor 150000000 [] (fresh 150000000) 0 ⟨0, 65536⟩ true 5000000
      (by decide) rfl (by decide) (by decide)⟩

theorem newChunkSize_tail {hint d : Nat} {us : Int} {r : Nat}
    (h : r ≤ candidateSize hint d us ∨ r - candidateSize hint d us < candidateSize hint d us / 2) :
    newChunkSize hint d us r = min r 67108864 := by
  unfold newChunkSize tailMerge
  simp only [ge_iff_le, if_pos h]
  split_ifs <;> omega

/-- C7 as stated fails: the candidate for the successor of the first chunk of a
150,000,000-byte file, measured over 11 ticks, exceeds the 149,868,928 remaining bytes, yet
the successor has 64 MiB and the next position stops short of the file size. -/
theorem tail_merge_capped :
    150000000 - 131072 ≤ candidateSize 65536 65536 11 ∧
      ReportCompletion (fresh 150000000) 0 true 65536 11 =
        some ⟨150000000, 67239936, 65536, 65536, [⟨131072, 67108864⟩, ⟨65536, 65536⟩]⟩ :=
  ⟨by decide, by decide⟩

/-- C7 amended: in every state reached from a fresh job, when the candidate size of a fully
read chunk is at least the remaining bytes, or would leave fewer than half of itself, the
successor has the remaining bytes capped at 64 MiB; when at most 64 MiB remain it takes all
of them and the next position becomes the file size. -/
theorem tail_merge_takes_remaining (S : Nat) (es : List Completion) (f : AFile) (p : Nat)
    (c : Chunk) (ok : Bool) (us : Int) (hS : S < 2 ^ 64) (hrun : run (fresh S) es = some f)
    (hc : chunkAt f.m_chunks p = some c) (hn : f.m_nextChunkPosition < f.m_size)
    (htail : f.m_size - f.m_nextChunkPosition ≤ candidateSize f.m_currentChunkSize c.m_chunkSize us ∨
      f.m_size - f.m_nextChunkPosition - candidateSize f.m_currentChunkSize c.m_chunkSize us <
        candidateSize f.m_currentChunkSize c.m_chunkSize us / 2) :
    ∃ f1, ReportCompletion f p ok c.m_chunkSize us = some f1 ∧
      f1.m_chunks =
        ⟨f.m_nextChunkPosition, min (f.m_size - f.m_nextChunkPosition) 67108864⟩ ::
          chunkErase f.m_chunks p ∧
      f1.m_nextChunkPosition =
        f.m_nextChunkPosition + min (f.m_size - f.m_nextChunkPosition) 67108864 ∧
      (f.m_size - f.m_nextChunkPosition ≤ 67108864 → f1.m_nextChunkPosition = f.m_size) := by
  have hI := inv_run (inv_fresh hS) hrun
  have hfull := ReportCompletion_full ok us hI hc hn
  have hsize := newChunkSize_tail htail
  refine ⟨_, hfull, ?_, ?_, ?_⟩
  · show (_ :: _ : List Chunk) = _
    rw [hsize]
  · show f.m_nextChunkPosition + _ = _
    rw [hsize]
  · intro hle
    show f.m_nextChunkPosition + _ = _
    rw [hsize]
    omega

theorem tail_merge_takes_remaining_witness :
    chunkAt (fresh 300000).m_chunks 0 = some ⟨0, 65536⟩ ∧
    300000 - 131072 - candidateSize 65536 65536 50000000 < candidateSize 65536 65536 50000000 / 2 ∧
    ∃ f1, ReportCompletion (fresh 300000) 0 true 65536 50000000 = some f1 ∧
      f1.m_chunks = ⟨131072, min (300000 - 131072) 67108864⟩ :: chunkErase (fresh 300000).m_chunks 0 ∧
      f1.m_nextChunkPosition = 131072 + min (300000 - 131072) 67108864 ∧
      (300000 - 131072 ≤ 67108864 → f1.m_nextChunkPosition = 300000) :=
  ⟨by decide, by decide,
    tail_merge_takes_remaining 300000 [] (fresh 300000) 0 ⟨0, 65536⟩ true 50000000
      (by decide) rfl (by decide) (by decide) (by decide)⟩

/-- The throughput estimate of a 64 KiB chunk read in more than 10 and fewer than
10,000,000 ticks, against 149,868,928 remaining bytes. -/
theorem newChunkSize_first_chunk (t : Int) (h1 : 10 < t) (h2 : t < 10000000) :
    65536 < newChunkSize 65536 65536 t 149868928 ∧
      newChunkSize 65536 65536 t 149868928 ≤ 67108864 := by
  have hk1 : 10 ≤ 100000000 / t.toNat := by
    rw [Nat.le_div_iff_mul_le (by omega)]
    omega
  have hk2 : 100000000 / t.toNat ≤ 100000000 := Nat.div_le_self _ _
  unfold newChunkSize tailMerge candidateSize
  generalize 100000000 / t.toNat = k at hk1 hk2
  simp only [gt_iff_lt, if_pos h1, ge_iff_le]
  have e : 65536 * k % 2 ^ 64 = 65536 * k := by omega
  rw [e]
  split_ifs <;> omega

/-- C8 as stated fails: when the first chunk completes within 10 ticks the elapsed time counts
as negligible, the hint is reused and the successor has exactly 65,536 bytes. -/
theorem negligible_time_keeps_chunk_size :
    ReportCompletion (fresh 150000000) 0 true 65536 0 =
      some ⟨150000000, 196608, 65536, 65536, [⟨131072, 65536⟩, ⟨65536, 65536⟩]⟩ :=
  by decide

/-- C8 amended: for a fresh job on a 150,000,000-byte file, when the first chunk completes
fully after `t` ticks with `10 < t < 10,000,000`, the successor chunk at 131,072 has more than
65,536 and at most 67,108,864 bytes. -/
theorem scale_up_scenario (t : Int) (h1 : 10 < t) (h2 : t < 10000000) :
    (fresh 150000000).m_chunks = [⟨65536, 65536⟩, ⟨0, 65536⟩] ∧
    (fresh 150000000).m_nextChunkPosition = 131072 ∧
    ∃ f1 n, ReportCompletion (fresh 150000000) 0 true 65536 t = some f1 ∧
      f1.m_chunks = [⟨131072, n⟩, ⟨65536, 65536⟩] ∧ 65536 < n ∧ n ≤ 67108864 := by
  have hfresh : fresh 150000000 = ⟨150000000, 131072, 65536, 0, [⟨65536, 65536⟩, ⟨0, 65536⟩]⟩ :=
    fresh_large (by omega) (by omega)
  have hI : Inv (fresh 150000000) := inv_fresh (by omega)
  rw [hfresh] at hI ⊢
  refine ⟨rfl, rfl, ?_⟩
  have hc : chunkAt [(⟨65536, 65536⟩ : Chunk), ⟨0, 65536⟩] 0 = some ⟨0, 65536⟩ := by decide
  have hfull := ReportCompletion_full true t hI hc (by show 131072 < 150000000; omega)
  have hb := newChunkSize_first_chunk t h1 h2
  have he : chunkErase [(⟨65536, 65536⟩ : Chunk), ⟨0, 65536⟩] 0 = [⟨65536, 65536⟩] := by decide
  refine ⟨_, newChunkSize 65536 65536 t 149868928, hfull, ?_, hb.1, hb.2⟩
  unfold afterFull
  simp only [he]

theorem scale_up_scenario_witness :
    (10 : Int) < 5000000 ∧ (5000000 : Int) < 10000000 ∧
    (fresh 150000000).m_chunks = [⟨65536, 65536⟩, ⟨0, 65536⟩] ∧
    (fresh 150000000).m_nextChunkPosition = 131072 ∧
    ∃ f1 n, ReportCompletion (fresh 150000000) 0 true 65536 5000000 = some f1 ∧
      f1.m_chunks = [⟨131072, n⟩, ⟨65536, 65536⟩] ∧ 65536 < n ∧ n ≤ 67108864 :=
  ⟨by decide, by decide, scale_up_scenario 5000000 (by decide) (by decide)⟩

/-- C10: on a fresh job for a file of `S > 0` bytes, after any sequence of completions that
each read their whole chunk: every outstanding chunk has at least one byte; the number of
completions so far is at most the bytes copied, which are at most `S`; the table is empty
exactly when `m_bytesCopied = S`, and then `m_nextChunkPosition = S`; every outstanding chunk
can complete, and doing so strictly increases `m_bytesCopied`; and the run can be continued
to a state with an empty table, `m_bytesCopied = S` and `m_nextChunkPosition = S` using no
more than `S` completions in total. -/
theorem copy_terminates (S : Nat) (es : List Completion) (f : AFile) (hpos : 0 < S)
    (hS : S < 2 ^ 64) (hrun : runFull (fresh S) es = some f) :
    (∀ c ∈ f.m_chunks, 1 ≤ c.m_chunkSize) ∧
    es.length ≤ f.m_bytesCopied ∧ f.m_bytesCopied ≤ S ∧
    (f.m_chunks = [] ↔ f.m_bytesCopied = S) ∧
    (f.m_chunks = [] → f.m_nextChunkPosition = S) ∧
    (∀ c ∈ f.m_chunks, ∀ ok us, ∃ f1,
      runFull f [⟨c.m_position, ok, c.m_chunkSize, us⟩] = some f1 ∧
        f.m_bytesCopied < f1.m_bytesCopied) ∧
    (∃ es1 f1, es.length + es1.length ≤ S ∧ runFull f es1 = some f1 ∧
      f1.m_chunks = [] ∧ f1.m_bytesCopied = S ∧ f1.m_nextChunkPosition = S) := by
  have hs0 := m_size_fresh hS
  have hb0 := m_bytesCopied_fresh hS
  obtain ⟨hI, hE, hs, hb⟩ := runFull_invariant (inv_fresh hS) (exact_fresh hS) (by omega) hrun
  rw [hs0] at hs
  have hposf : 0 < f.m_size := by omega
  have hle := exact_copied_le hE
  refine ⟨fun c hc => hI.nonzero hposf c hc, by omega, by omega, ⟨?_, ?_⟩, ?_, ?_, ?_⟩
  · intro h
    have := (exact_done_of_empty hI hE h).1
    omega
  · intro h
    exact exact_empty_of_done hI hE hposf (by omega)
  · intro h
    have := (exact_done_of_empty hI hE h).2
    omega
  · intro c hc ok us
    obtain ⟨hfull, f1, hd⟩ := can_step ok us hI hc
    refine ⟨f1, ?_, (full_step hI hE hposf hfull hd).2.2⟩
    simp only [runFull, hfull, if_true, hd]
  · obtain ⟨es1, f1, hlen, hrun1, hempty⟩ :=
      exists_finish (S - f.m_bytesCopied) f hI hE hposf (by omega)
    obtain ⟨hI1, hE1, hs1, _⟩ := runFull_invariant hI hE hposf hrun1
    have hdone := exact_done_of_empty hI1 hE1 hempty
    exact ⟨es1, f1, by omega, hrun1, hempty, by omega, by omega⟩

theorem copy_terminates_witness :
    (0 < 300000 ∧ 300000 < 2 ^ 64 ∧
      runFull (fresh 300000) [⟨0, true, 65536, 50000000⟩] =
        some ⟨300000, 300000, 168928, 65536, [⟨131072, 168928⟩, ⟨65536, 65536⟩]⟩) ∧
    ∃ es1 f1, 1 + es1.length ≤ 300000 ∧
      runFull ⟨300000, 300000, 168928, 65536, [⟨131072, 168928⟩, ⟨65536, 65536⟩]⟩ es1 = some f1 ∧
      f1.m_chunks = [] ∧ f1.m_bytesCopied = 300000 ∧ f1.m_nextChunkPosition = 300000 :=
  ⟨⟨by decide, by decide, by decide⟩,
    (copy_terminates 300000 [⟨0, true, 65536, 50000000⟩]
      ⟨300000, 300000, 168928, 65536, [⟨131072, 168928⟩, ⟨65536, 65536⟩]⟩
      (by decide) (by decide) (by decide)).2.2.2.2.2.2⟩

end SlowCopy
